import Mathlib

/-!
# GoLab02: a websocket broadcast relay (`main.go`)

A shallow embedding of the two goroutine bodies of `main.go`

* `handleWebsocketConnections` (one read loop per connection), and
* `handleMessages` (the single dispatcher that fans a message out to `users`),

together with the global map `users` they share.

Modelling conventions.

* A `*websocket.Conn` is a pointer; only its identity matters, so it is a `Nat`.
* A Go `string` is an immutable byte sequence and `string(b)` / `[]byte(s)` copy
  the bytes; `GoString` wraps the byte list and the two conversions are the
  embedding's `GoString.ofBytes` / `GoString.toBytes`.
* `users` is a Go `map[*websocket.Conn]bool`: a finite list of entries whose
  keys are pairwise distinct (`Users`).  The order of the list is an arbitrary
  representation detail: the order in which `range` visits the keys is chosen
  by the environment (`Env.rangeOrder`) anew for every loop.
* What the websocket library answers (`WriteMessage`, `Close`, `ReadMessage`,
  `Upgrade`, `RemoteAddr`) is not code of the program.  The dispatcher is
  parameterised by an arbitrary environment `Env σ` over an arbitrary world
  state `σ`; the read loop consumes the list of results `ReadMessage` returned.
* Both functions report what they did as a list of `Event`s in program order.
  `fmt.Printf` / `log.Printf` lines only write to the console and are omitted.
* Each function is embedded as the sequential program it is.  The effect of
  the Go scheduler interleaving several goroutines on the unsynchronised map
  is outside the embedding.
-/

namespace GoLab02

/-- Identity of a `*websocket.Conn`. -/
abbrev Conn := Nat

/-- One byte. -/
abbrev Byte := Fin 256

/-- Go `string`: an immutable sequence of bytes. -/
structure GoString where
  bytes : List Byte
deriving DecidableEq, Repr

/-- Go conversion `string(msg)` of a byte slice. -/
def GoString.ofBytes (msg : List Byte) : GoString := ⟨msg⟩

/-- Go conversion `[]byte(s)` of a string. -/
def GoString.toBytes (s : GoString) : List Byte := s.bytes

/-- Message represents an user message (`type Message struct`); the field `Type`
is spelled `Type_`, `Type` being reserved. -/
structure Message where
  Address : GoString
  Text : GoString
  Type_ : Int
deriving DecidableEq, Repr

/-! ## The map `users` -/

/-- The global `users = make(map[*websocket.Conn]bool)`: entries with pairwise
distinct keys. -/
structure Users where
  entries : List (Conn × Bool)
  nodup : (entries.map Prod.fst).Nodup

/-- Keys currently in the map. -/
def Users.keys (u : Users) : List Conn := u.entries.map Prod.fst

/-- The value `make(map[*websocket.Conn]bool)`. -/
def Users.empty : Users := ⟨[], List.nodup_nil⟩

/-- Entries left by `delete(m, conn)`. -/
def deleteEntries (l : List (Conn × Bool)) (conn : Conn) : List (Conn × Bool) :=
  l.filter (fun e => decide (e.1 ≠ conn))

/-- Entries after `m[conn] = v`: the value of an existing key is overwritten,
a new key gets a new entry. -/
def setEntries (l : List (Conn × Bool)) (conn : Conn) (v : Bool) : List (Conn × Bool) :=
  if conn ∈ l.map Prod.fst then
    l.map (fun e => if e.1 = conn then (conn, v) else e)
  else
    l ++ [(conn, v)]

/-- Go `delete(users, conn)`: removes the entry of `conn` if there is one; a
no-op, and never an error, when there is none. -/
def Users.delete (u : Users) (conn : Conn) : Users :=
  ⟨deleteEntries u.entries conn,
    List.Nodup.sublist (List.Sublist.map Prod.fst (List.filter_sublist u.entries)) u.nodup⟩

/-- Go `users[conn] = v`. -/
def Users.set (u : Users) (conn : Conn) (v : Bool) : Users :=
  ⟨setEntries u.entries conn v, by
    unfold setEntries
    split
    · have hk : (u.entries.map (fun e => if e.1 = conn then (conn, v) else e)).map Prod.fst
          = u.entries.map Prod.fst := by
        rw [List.map_map]
        apply List.map_congr_left
        intro e _
        by_cases he : e.1 = conn
        · simp [he]
        · simp [he]
      rw [hk]
      exact u.nodup
    · rename_i hc
      rw [List.map_append]
      exact List.Nodup.append u.nodup (List.nodup_singleton conn) (by simpa using hc)⟩

/-- Whether `conn` is a key of the map. -/
def Users.contains (u : Users) (conn : Conn) : Bool := decide (conn ∈ u.keys)

/-- The arguments `message.Type, []byte(message.Text)` that `handleMessages`
passes to `WriteMessage`. -/
def Message.frame (message : Message) : Int × List Byte :=
  (message.Type_, message.Text.toBytes)

/-! ## Events -/

/-- What the two goroutine bodies do, in program order. -/
inductive Event where
  /-- The assignment `users[conn] = true`. -/
  | insert (conn : Conn)
  /-- The call `delete(users, conn)`. -/
  | delete (conn : Conn)
  /-- The call `conn.Close()`. -/
  | close (conn : Conn)
  /-- The channel send `channel <- message`. -/
  | send (message : Message)
  /-- The channel receive `message := <-channel`. -/
  | recv (message : Message)
  /-- The call `user.WriteMessage(messageType, data)` and whether it returned a nil error. -/
  | write (user : Conn) (messageType : Int) (data : List Byte) (ok : Bool)
deriving DecidableEq, Repr

/-- Whether the event is a `WriteMessage` on `conn`. -/
def Event.isWriteTo (conn : Conn) : Event → Bool
  | .write user _ _ _ => decide (user = conn)
  | _ => false

/-- The connection a `WriteMessage` event is issued on. -/
def Event.writeTarget : Event → Option Conn
  | .write user _ _ _ => some user
  | _ => none

/-- The frame (message type and payload) a `WriteMessage` on `conn` carries. -/
def Event.frameTo (conn : Conn) : Event → Option (Int × List Byte)
  | .write user messageType data _ => if user = conn then some (messageType, data) else none
  | _ => none

/-- The message an event takes from the channel. -/
def Event.received : Event → Option Message
  | .recv message => some message
  | _ => none

/-- The message an event submits to the channel. -/
def Event.submitted : Event → Option Message
  | .send message => some message
  | _ => none

/-- Effect of an event on the map `users`. -/
def applyEvent (u : Users) : Event → Users
  | .insert conn => u.set conn true
  | .delete conn => u.delete conn
  | _ => u

/-- Effect of a sequence of events on the map `users`. -/
def applyEvents (u : Users) (evs : List Event) : Users := evs.foldl applyEvent u

/-! ## The dispatcher `handleMessages` -/

/-- The websocket library and the Go runtime as seen by the dispatcher, over
a world state `σ`: the answer of `WriteMessage` (`true` for a nil error), the
effect of `Close`, and the order in which a `range` over a map with the given
keys produces them (every key once, in an order of the runtime's choosing). -/
structure Env (σ : Type) where
  WriteMessage : σ → Conn → Int → List Byte → Bool × σ
  Close : σ → Conn → σ
  rangeOrder : σ → List Conn → List Conn
  rangeOrder_perm : ∀ (w : σ) (l : List Conn), (rangeOrder w l).Perm l

/-- Result of running dispatcher code: the events, the map and the world. -/
structure Outcome (σ : Type) where
  trace : List Event
  users : Users
  world : σ

/-- The body of `for user := range users` in `handleMessages` for one `user`:
```go
err := user.WriteMessage(message.Type_, []byte(message.Text))
if err != nil {
    user.Close()
    delete(users, user)
}
``` -/
def rangeBody {σ : Type} (E : Env σ) (message : Message) (user : Conn) (users : Users) (w : σ) :
    Outcome σ :=
  let data := message.Text.toBytes
  let r := E.WriteMessage w user message.Type_ data
  if r.1 then
    ⟨[Event.write user message.Type_ data true], users, r.2⟩
  else
    ⟨[Event.write user message.Type_ data false, Event.close user, Event.delete user],
      users.delete user, E.Close r.2 user⟩

/-- The loop `for user := range users` over the keys still to be visited.  A
key that was removed from the map before the loop reached it is not produced
(Go specification, "For statements with range clause"). -/
def rangeLoop {σ : Type} (E : Env σ) (message : Message) :
    List Conn → Users → σ → Outcome σ
  | [], users, w => ⟨[], users, w⟩
  | user :: rest, users, w =>
    if users.contains user then
      let o := rangeBody E message user users w
      let o' := rangeLoop E message rest o.users o.world
      ⟨o.trace ++ o'.trace, o'.users, o'.world⟩
    else
      rangeLoop E message rest users w

/-- The fan-out of one message: the whole statement `for user := range users`. -/
def fanOut {σ : Type} (E : Env σ) (message : Message) (users : Users) (w : σ) : Outcome σ :=
  rangeLoop E message (E.rangeOrder w users.keys) users w

/-- The loop of `handleMessages` run on the messages the channel delivers, in
the order it delivers them:
```go
for {
    message := <-channel
    for user := range users { ... }
}
``` -/
def handleMessages {σ : Type} (E : Env σ) : List Message → Users → σ → Outcome σ
  | [], users, w => ⟨[], users, w⟩
  | message :: rest, users, w =>
    let o := fanOut E message users w
    let o' := handleMessages E rest o.users o.world
    ⟨Event.recv message :: (o.trace ++ o'.trace), o'.users, o'.world⟩

/-! ## The read loop `handleWebsocketConnections` -/

/-- What one call of `conn.ReadMessage()` returned. -/
inductive ReadResult where
  /-- The results `msgType, msg, nil`. -/
  | ok (msgType : Int) (msg : List Byte)
  /-- A non-nil `err`. -/
  | err
deriving DecidableEq, Repr

/-- State of a handler run: whether the function has returned. -/
structure Run where
  trace : List Event
  returned : Bool
deriving DecidableEq, Repr

/-- The `Message` literal built in the read loop from a frame that was read. -/
def mkMessage (addr : GoString) (msgType : Int) (msg : List Byte) : Message :=
  let text := GoString.ofBytes msg
  { Address := addr, Text := text, Type_ := msgType }

/-- The `for` loop of `handleWebsocketConnections` on the results of the
successive `ReadMessage` calls.  When the results are used up the goroutine
is waiting inside `ReadMessage` and has not left the loop. -/
def readLoop (remoteAddr : Conn → GoString) (conn : Conn) : List ReadResult → Run
  | [] => ⟨[], false⟩
  | ReadResult.err :: _ => ⟨[Event.delete conn], true⟩
  | ReadResult.ok msgType msg :: rest =>
    let message := mkMessage (remoteAddr conn) msgType msg
    let r := readLoop remoteAddr conn rest
    ⟨Event.send message :: r.trace, r.returned⟩

/-- The function `handleWebsocketConnections`: `upgrade` is the result of
`upgrader.Upgrade` (`none` for an error), `reads` what the `ReadMessage`
calls on the connection return.  The deferred `conn.Close()` runs when the
function returns. -/
def handleWebsocketConnections (remoteAddr : Conn → GoString) (upgrade : Option Conn)
    (reads : List ReadResult) : Run :=
  match upgrade with
  | none => ⟨[], true⟩
  | some conn =>
    let r := readLoop remoteAddr conn reads
    ⟨Event.insert conn :: (r.trace ++ (if r.returned then [Event.close conn] else [])), r.returned⟩

/-! ## Unregistration -/

/-- Errors a registry operation could report. -/
inductive RegistryError where
  | DuplicateConnection
deriving DecidableEq, Repr

/-- Unregistration as both goroutines do it: `delete(users, conn)`.  The
builtin has no error result, so the outcome is always `Except.ok`. -/
def unregister (users : Users) (conn : Conn) : Except RegistryError Users :=
  Except.ok (users.delete conn)

/-! ## Concrete inputs -/

/-- A map with the three connections 1, 2 and 3. -/
def exampleUsers : Users := ⟨[(1, true), (2, true), (3, true)], by decide⟩

/-- An environment in which every send on connection 2 fails, every other
send succeeds, and `range` produces the keys in reverse. -/
def exampleEnv : Env Unit :=
  ⟨fun _ user _ _ => (decide (user ≠ 2), ()), fun _ _ => (), fun _ l => l.reverse,
    fun _ l => List.reverse_perm l⟩

/-- An environment in which every send succeeds and `range` produces the keys
in the order of the entries. -/
def exampleEnvOk : Env Unit :=
  ⟨fun _ _ _ _ => (true, ()), fun _ _ => (), fun _ l => l, fun _ l => List.Perm.refl l⟩

/-- The address every connection reports in the examples. -/
def exampleAddr : Conn → GoString := fun _ => ⟨[49, 50, 55]⟩

/-- A text message `hi` as connection 1 submits it. -/
def exampleMessage : Message := mkMessage (exampleAddr 1) 1 [104, 105]

/-- A second message, binary. -/
def exampleMessage2 : Message := mkMessage (exampleAddr 3) 2 [0]

/-! ## Facts about the map -/

theorem Users.ext_entries {u v : Users} (h : u.entries = v.entries) : u = v := by
  cases u
  cases v
  simp only [Users.mk.injEq]
  exact h

theorem Users.keys_nodup (u : Users) : u.keys.Nodup := u.nodup

theorem Users.mem_keys_delete (u : Users) (conn d : Conn) :
    d ∈ (u.delete conn).keys ↔ d ∈ u.keys ∧ d ≠ conn := by
  simp only [Users.keys, Users.delete, deleteEntries, List.mem_map, List.mem_filter]
  constructor
  · rintro ⟨e, ⟨he, hne⟩, rfl⟩
    exact ⟨⟨e, he, rfl⟩, by simpa using hne⟩
  · rintro ⟨⟨e, he, rfl⟩, hne⟩
    exact ⟨e, ⟨he, by simpa using hne⟩, rfl⟩

theorem Users.delete_of_not_mem (u : Users) (conn : Conn) (h : conn ∉ u.keys) :
    u.delete conn = u := by
  apply Users.ext_entries
  simp only [Users.delete, deleteEntries]
  rw [List.filter_eq_self]
  intro e he
  have : e.1 ≠ conn := by
    intro hc
    exact h (by rw [← hc]; exact List.mem_map_of_mem Prod.fst he)
  simpa using this

theorem Users.mem_keys_set (u : Users) (conn : Conn) (v : Bool) (d : Conn) :
    d ∈ (u.set conn v).keys ↔ d = conn ∨ d ∈ u.keys := by
  simp only [Users.keys, Users.set, setEntries]
  split
  · rename_i hc
    have hk : (u.entries.map (fun e => if e.1 = conn then (conn, v) else e)).map Prod.fst
        = u.entries.map Prod.fst := by
      rw [List.map_map]
      apply List.map_congr_left
      intro e _
      by_cases he : e.1 = conn
      · simp [he]
      · simp [he]
    rw [hk]
    constructor
    · intro h
      exact Or.inr h
    · rintro (rfl | h)
      · exact hc
      · exact h
  · simp only [List.map_append, List.map_cons, List.map_nil, List.mem_append,
      List.mem_singleton]
    tauto

/-! ## One iteration of the fan-out loop -/

theorem rangeBody_cases {σ : Type} (E : Env σ) (message : Message) (user : Conn) (users : Users)
    (w : σ) :
    ((rangeBody E message user users w).trace
        = [Event.write user message.Type_ message.Text.toBytes true]
      ∧ (rangeBody E message user users w).users = users)
    ∨ ((rangeBody E message user users w).trace
        = [Event.write user message.Type_ message.Text.toBytes false, Event.close user,
            Event.delete user]
      ∧ (rangeBody E message user users w).users = users.delete user) := by
  unfold rangeBody
  by_cases h : (E.WriteMessage w user message.Type_ message.Text.toBytes).1 = true
  · left
    simp [h]
  · right
    simp [h]

theorem rangeLoop_nil {σ : Type} (E : Env σ) (message : Message) (users : Users) (w : σ) :
    rangeLoop E message [] users w = ⟨[], users, w⟩ := rfl

theorem rangeLoop_cons_pos {σ : Type} (E : Env σ) (message : Message) (user : Conn)
    (rest : List Conn) (users : Users) (w : σ) (h : user ∈ users.keys) :
    rangeLoop E message (user :: rest) users w =
      ⟨(rangeBody E message user users w).trace ++
          (rangeLoop E message rest (rangeBody E message user users w).users
            (rangeBody E message user users w).world).trace,
        (rangeLoop E message rest (rangeBody E message user users w).users
            (rangeBody E message user users w).world).users,
        (rangeLoop E message rest (rangeBody E message user users w).users
            (rangeBody E message user users w).world).world⟩ := by
  have hc : users.contains user = true := by simpa [Users.contains] using h
  simp [rangeLoop, hc]

theorem rangeLoop_cons_neg {σ : Type} (E : Env σ) (message : Message) (user : Conn)
    (rest : List Conn) (users : Users) (w : σ) (h : user ∉ users.keys) :
    rangeLoop E message (user :: rest) users w = rangeLoop E message rest users w := by
  have hc : users.contains user = false := by simpa [Users.contains] using h
  simp [rangeLoop, hc]

/-- The loop never adds a key to the map. -/
theorem rangeLoop_users_subset {σ : Type} (E : Env σ) (message : Message) (l : List Conn) :
    ∀ (users : Users) (w : σ) (c : Conn),
      c ∈ (rangeLoop E message l users w).users.keys → c ∈ users.keys := by
  induction l with
  | nil => intro users w c h; exact h
  | cons user rest ih =>
    intro users w c h
    by_cases hu : user ∈ users.keys
    · rw [rangeLoop_cons_pos E message user rest users w hu] at h
      have h1 := ih _ _ c h
      rcases rangeBody_cases E message user users w with ⟨_, hU⟩ | ⟨_, hU⟩
      · rw [hU] at h1
        exact h1
      · rw [hU] at h1
        exact ((Users.mem_keys_delete users user c).1 h1).1
    · rw [rangeLoop_cons_neg E message user rest users w hu] at h
      exact ih _ _ c h

/-- Every `WriteMessage` of the loop is issued on a key that the loop was
given and that was in the map when the loop started, and carries the
message's type and the bytes of its text. -/
theorem rangeLoop_write_mem {σ : Type} (E : Env σ) (message : Message) (l : List Conn) :
    ∀ (users : Users) (w : σ) (c : Conn) (t : Int) (d : List Byte) (ok : Bool),
      Event.write c t d ok ∈ (rangeLoop E message l users w).trace →
        c ∈ l ∧ c ∈ users.keys ∧ t = message.Type_ ∧ d = message.Text.toBytes := by
  induction l with
  | nil => intro users w c t d ok h; simp [rangeLoop_nil] at h
  | cons user rest ih =>
    intro users w c t d ok h
    by_cases hu : user ∈ users.keys
    · rw [rangeLoop_cons_pos E message user rest users w hu] at h
      simp only [List.mem_append] at h
      rcases h with h | h
      · rcases rangeBody_cases E message user users w with ⟨hT, _⟩ | ⟨hT, _⟩
        · rw [hT] at h
          simp at h
          obtain ⟨rfl, rfl, rfl, _⟩ := h
          exact ⟨List.mem_cons_self _ _, hu, rfl, rfl⟩
        · rw [hT] at h
          simp at h
          obtain ⟨rfl, rfl, rfl, _⟩ := h
          exact ⟨List.mem_cons_self _ _, hu, rfl, rfl⟩
      · obtain ⟨h1, h2, h3, h4⟩ := ih _ _ c t d ok h
        refine ⟨List.mem_cons_of_mem _ h1, ?_, h3, h4⟩
        rcases rangeBody_cases E message user users w with ⟨_, hU⟩ | ⟨_, hU⟩
        · rw [hU] at h2
          exact h2
        · rw [hU] at h2
          exact ((Users.mem_keys_delete users user c).1 h2).1
    · rw [rangeLoop_cons_neg E message user rest users w hu] at h
      obtain ⟨h1, h2, h3, h4⟩ := ih _ _ c t d ok h
      exact ⟨List.mem_cons_of_mem _ h1, h2, h3, h4⟩

theorem isWriteTo_eq_true {conn : Conn} {e : Event} (h : e.isWriteTo conn = true) :
    ∃ t d ok, e = Event.write conn t d ok := by
  cases e with
  | write user t d ok =>
    have hu : user = conn := by simpa [Event.isWriteTo] using h
    exact ⟨t, d, ok, by rw [hu]⟩
  | insert _ => simp [Event.isWriteTo] at h
  | delete _ => simp [Event.isWriteTo] at h
  | close _ => simp [Event.isWriteTo] at h
  | send _ => simp [Event.isWriteTo] at h
  | recv _ => simp [Event.isWriteTo] at h

theorem rangeBody_filter {σ : Type} (E : Env σ) (message : Message) (user : Conn) (users : Users)
    (w : σ) (c : Conn) :
    (c = user ∧ ∃ ok, (rangeBody E message user users w).trace.filter (Event.isWriteTo c)
        = [Event.write c message.Type_ message.Text.toBytes ok])
    ∨ (c ≠ user ∧ (rangeBody E message user users w).trace.filter (Event.isWriteTo c) = []) := by
  by_cases hc : c = user
  · left
    refine ⟨hc, ?_⟩
    subst hc
    rcases rangeBody_cases E message c users w with ⟨hT, _⟩ | ⟨hT, _⟩
    · exact ⟨true, by rw [hT]; simp [List.filter_cons, Event.isWriteTo]⟩
    · exact ⟨false, by rw [hT]; simp [List.filter_cons, Event.isWriteTo]⟩
  · right
    refine ⟨hc, ?_⟩
    have hc' : ¬ user = c := fun h => hc h.symm
    rcases rangeBody_cases E message user users w with ⟨hT, _⟩ | ⟨hT, _⟩
    · rw [hT]; simp [List.filter_cons, Event.isWriteTo, hc']
    · rw [hT]; simp [List.filter_cons, Event.isWriteTo, hc']

/-- A key the loop is not given is not written to. -/
theorem rangeLoop_filter_of_not_mem {σ : Type} (E : Env σ) (message : Message) (l : List Conn)
    (users : Users) (w : σ) (c : Conn) (h : c ∉ l ∨ c ∉ users.keys) :
    (rangeLoop E message l users w).trace.filter (Event.isWriteTo c) = [] := by
  rw [List.filter_eq_nil_iff]
  intro e he hw
  obtain ⟨t, d, ok, rfl⟩ := isWriteTo_eq_true hw
  obtain ⟨h1, h2, _, _⟩ := rangeLoop_write_mem E message l users w c t d ok he
  rcases h with h | h
  · exact h h1
  · exact h h2

/-- A key that the loop is given once and that is in the map is written to
exactly once. -/
theorem rangeLoop_filter_of_mem {σ : Type} (E : Env σ) (message : Message) (l : List Conn) :
    ∀ (users : Users) (w : σ) (c : Conn), l.Nodup → c ∈ l → c ∈ users.keys →
      ∃ ok, (rangeLoop E message l users w).trace.filter (Event.isWriteTo c)
        = [Event.write c message.Type_ message.Text.toBytes ok] := by
  induction l with
  | nil => intro users w c _ h; simp at h
  | cons user rest ih =>
    intro users w c hnd hcl hcu
    have hnd' : rest.Nodup := (List.nodup_cons.1 hnd).2
    have hur : user ∉ rest := (List.nodup_cons.1 hnd).1
    by_cases hu : user ∈ users.keys
    · rw [rangeLoop_cons_pos E message user rest users w hu]
      simp only [List.filter_append]
      rcases rangeBody_filter E message user users w c with ⟨hc, ok, hF⟩ | ⟨hc, hF⟩
      · subst hc
        refine ⟨ok, ?_⟩
        rw [hF, rangeLoop_filter_of_not_mem E message rest _ _ c (Or.inl hur)]
        rfl
      · have hcr : c ∈ rest := by
          rcases List.mem_cons.1 hcl with h | h
          · exact absurd h hc
          · exact h
        have hcu' : c ∈ (rangeBody E message user users w).users.keys := by
          rcases rangeBody_cases E message user users w with ⟨_, hU⟩ | ⟨_, hU⟩
          · rw [hU]; exact hcu
          · rw [hU]; exact (Users.mem_keys_delete users user c).2 ⟨hcu, hc⟩
        obtain ⟨ok, hI⟩ := ih _ (rangeBody E message user users w).world c hnd' hcr hcu'
        refine ⟨ok, ?_⟩
        rw [hF, hI]
        rfl
    · rw [rangeLoop_cons_neg E message user rest users w hu]
      have hc : c ≠ user := by
        intro h
        rw [h] at hcu
        exact hu hcu
      have hcr : c ∈ rest := by
        rcases List.mem_cons.1 hcl with h | h
        · exact absurd h hc
        · exact h
      exact ih users w c hnd' hcr hcu

/-- The connections the loop attempts a send on, in the order of the attempts:
the keys it is given that are in the map. -/
theorem rangeLoop_targets {σ : Type} (E : Env σ) (message : Message) (l : List Conn) :
    ∀ (users : Users) (w : σ), l.Nodup →
      (rangeLoop E message l users w).trace.filterMap Event.writeTarget
        = l.filter (fun c => decide (c ∈ users.keys)) := by
  induction l with
  | nil => intro users w _; rfl
  | cons user rest ih =>
    intro users w hnd
    have hnd' : rest.Nodup := (List.nodup_cons.1 hnd).2
    have hur : user ∉ rest := (List.nodup_cons.1 hnd).1
    by_cases hu : user ∈ users.keys
    · rw [rangeLoop_cons_pos E message user rest users w hu]
      simp only [List.filterMap_append]
      rw [ih _ _ hnd']
      have hrest : rest.filter (fun c => decide (c ∈ (rangeBody E message user users w).users.keys))
          = rest.filter (fun c => decide (c ∈ users.keys)) := by
        apply List.filter_congr
        intro c hc
        have hne : c ≠ user := fun h => hur (h ▸ hc)
        rcases rangeBody_cases E message user users w with ⟨_, hU⟩ | ⟨_, hU⟩
        · rw [hU]
        · rw [hU]
          simp [Users.mem_keys_delete, hne]
      rw [hrest]
      rcases rangeBody_cases E message user users w with ⟨hT, _⟩ | ⟨hT, _⟩
      · rw [hT]
        simp [List.filter_cons, hu, Event.writeTarget]
      · rw [hT]
        simp [List.filter_cons, hu, Event.writeTarget]
    · rw [rangeLoop_cons_neg E message user rest users w hu, ih _ _ hnd']
      simp [List.filter_cons, hu]

/-- The map after the loop: the entries of the connections on which no send
failed, untouched and in place. -/
theorem rangeLoop_entries {σ : Type} (E : Env σ) (message : Message) (l : List Conn) :
    ∀ (users : Users) (w : σ),
      (rangeLoop E message l users w).users.entries
        = users.entries.filter (fun e => decide
            (Event.write e.1 message.Type_ message.Text.toBytes false
              ∉ (rangeLoop E message l users w).trace)) := by
  induction l with
  | nil =>
    intro users w
    simp [rangeLoop_nil]
  | cons user rest ih =>
    intro users w
    by_cases hu : user ∈ users.keys
    · rw [rangeLoop_cons_pos E message user rest users w hu]
      simp only
      rw [ih]
      rcases rangeBody_cases E message user users w with ⟨hT, hU⟩ | ⟨hT, hU⟩
      · rw [hT, hU]
        apply List.filter_congr
        intro e _
        simp
      · rw [hT, hU]
        simp only [Users.delete, deleteEntries, List.filter_filter]
        apply List.filter_congr
        intro e _
        by_cases he : e.1 = user
        · simp [he]
        · simp [he]
    · rw [rangeLoop_cons_neg E message user rest users w hu]
      exact ih users w

/-! ## The fan-out of one message -/

theorem rangeOrder_nodup {σ : Type} (E : Env σ) (users : Users) (w : σ) :
    (E.rangeOrder w users.keys).Nodup :=
  (E.rangeOrder_perm w users.keys).nodup_iff.2 users.keys_nodup

theorem mem_rangeOrder {σ : Type} (E : Env σ) (users : Users) (w : σ) (c : Conn) :
    c ∈ E.rangeOrder w users.keys ↔ c ∈ users.keys :=
  (E.rangeOrder_perm w users.keys).mem_iff

theorem fanOut_filter_of_mem {σ : Type} (E : Env σ) (message : Message) (users : Users) (w : σ)
    (c : Conn) (hc : c ∈ users.keys) :
    ∃ ok, (fanOut E message users w).trace.filter (Event.isWriteTo c)
      = [Event.write c message.Type_ message.Text.toBytes ok] :=
  rangeLoop_filter_of_mem E message _ users w c (rangeOrder_nodup E users w)
    ((mem_rangeOrder E users w c).2 hc) hc

theorem fanOut_filter_of_not_mem {σ : Type} (E : Env σ) (message : Message) (users : Users)
    (w : σ) (c : Conn) (hc : c ∉ users.keys) :
    (fanOut E message users w).trace.filter (Event.isWriteTo c) = [] :=
  rangeLoop_filter_of_not_mem E message _ users w c (Or.inr hc)

theorem fanOut_targets {σ : Type} (E : Env σ) (message : Message) (users : Users) (w : σ) :
    (fanOut E message users w).trace.filterMap Event.writeTarget = E.rangeOrder w users.keys := by
  unfold fanOut
  rw [rangeLoop_targets E message _ users w (rangeOrder_nodup E users w), List.filter_eq_self]
  intro c hc
  simpa using (mem_rangeOrder E users w c).1 hc

/-- In a fan-out the send on a registered connection has one outcome. -/
theorem fanOut_write_iff {σ : Type} (E : Env σ) (message : Message) (users : Users) (w : σ)
    (c : Conn) (hc : c ∈ users.keys) :
    ∃ ok, ∀ b, Event.write c message.Type_ message.Text.toBytes b
      ∈ (fanOut E message users w).trace ↔ b = ok := by
  obtain ⟨ok, hF⟩ := fanOut_filter_of_mem E message users w c hc
  refine ⟨ok, fun b => ?_⟩
  have hmem : Event.write c message.Type_ message.Text.toBytes b
        ∈ (fanOut E message users w).trace
      ↔ Event.write c message.Type_ message.Text.toBytes b
        ∈ (fanOut E message users w).trace.filter (Event.isWriteTo c) := by
    rw [List.mem_filter]
    simp [Event.isWriteTo]
  rw [hmem, hF]
  simp

theorem fanOut_users_subset {σ : Type} (E : Env σ) (message : Message) (users : Users) (w : σ)
    (c : Conn) (h : c ∈ (fanOut E message users w).users.keys) : c ∈ users.keys :=
  rangeLoop_users_subset E message _ users w c h

theorem fanOut_entries {σ : Type} (E : Env σ) (message : Message) (users : Users) (w : σ) :
    (fanOut E message users w).users.entries
      = users.entries.filter (fun e => decide
          (Event.write e.1 message.Type_ message.Text.toBytes true
            ∈ (fanOut E message users w).trace)) := by
  have h := rangeLoop_entries E message (E.rangeOrder w users.keys) users w
  unfold fanOut
  rw [h]
  apply List.filter_congr
  intro e he
  have hk : e.1 ∈ users.keys := List.mem_map_of_mem Prod.fst he
  obtain ⟨ok, hok⟩ := fanOut_write_iff E message users w e.1 hk
  unfold fanOut at hok
  cases ok with
  | true =>
    have h1 := (hok true).2 rfl
    have h2 : Event.write e.1 message.Type_ message.Text.toBytes false
        ∉ (rangeLoop E message (E.rangeOrder w users.keys) users w).trace := by
      intro hf
      exact Bool.noConfusion ((hok false).1 hf)
    simp [h1, h2]
  | false =>
    have h1 := (hok false).2 rfl
    have h2 : Event.write e.1 message.Type_ message.Text.toBytes true
        ∉ (rangeLoop E message (E.rangeOrder w users.keys) users w).trace := by
      intro hf
      exact Bool.noConfusion ((hok true).1 hf)
    simp [h1, h2]

theorem fanOut_empty {σ : Type} (E : Env σ) (message : Message) (w : σ) :
    fanOut E message Users.empty w = ⟨[], Users.empty, w⟩ := by
  have h : E.rangeOrder w Users.empty.keys = [] := by
    have hp := E.rangeOrder_perm w Users.empty.keys
    exact List.Perm.eq_nil (by simpa [Users.empty, Users.keys] using hp)
  unfold fanOut
  rw [h]
  rfl

/-! ## The dispatcher loop -/

theorem handleMessages_cons {σ : Type} (E : Env σ) (message : Message) (rest : List Message)
    (users : Users) (w : σ) :
    handleMessages E (message :: rest) users w =
      ⟨Event.recv message :: ((fanOut E message users w).trace ++
          (handleMessages E rest (fanOut E message users w).users
            (fanOut E message users w).world).trace),
        (handleMessages E rest (fanOut E message users w).users
            (fanOut E message users w).world).users,
        (handleMessages E rest (fanOut E message users w).users
            (fanOut E message users w).world).world⟩ := rfl

theorem fanOut_received {σ : Type} (E : Env σ) (message : Message) (users : Users) (w : σ) :
    (fanOut E message users w).trace.filterMap Event.received = [] := by
  rw [List.filterMap_eq_nil_iff]
  intro e he
  unfold fanOut at he
  cases e with
  | recv m =>
    exfalso
    revert he
    generalize E.rangeOrder w users.keys = l
    intro he
    induction l generalizing users w with
    | nil => simp [rangeLoop_nil] at he
    | cons user rest ih =>
      by_cases hu : user ∈ users.keys
      · rw [rangeLoop_cons_pos E message user rest users w hu] at he
        simp only [List.mem_append] at he
        rcases he with he | he
        · rcases rangeBody_cases E message user users w with ⟨hT, _⟩ | ⟨hT, _⟩
          · rw [hT] at he; simp at he
          · rw [hT] at he; simp at he
        · exact ih _ _ he
      · rw [rangeLoop_cons_neg E message user rest users w hu] at he
        exact ih _ _ he
  | insert _ => rfl
  | delete _ => rfl
  | close _ => rfl
  | send _ => rfl
  | write _ _ _ _ => rfl

/-- The dispatcher takes every message the channel delivers, in order. -/
theorem handleMessages_received {σ : Type} (E : Env σ) (ms : List Message) :
    ∀ (users : Users) (w : σ),
      (handleMessages E ms users w).trace.filterMap Event.received = ms := by
  induction ms with
  | nil => intro users w; rfl
  | cons m rest ih =>
    intro users w
    rw [handleMessages_cons]
    simp only [List.filterMap_cons, Event.received, List.filterMap_append]
    rw [fanOut_received, ih]
    rfl

theorem handleMessages_users_subset {σ : Type} (E : Env σ) (ms : List Message) :
    ∀ (users : Users) (w : σ) (c : Conn),
      c ∈ (handleMessages E ms users w).users.keys → c ∈ users.keys := by
  induction ms with
  | nil => intro users w c h; exact h
  | cons m rest ih =>
    intro users w c h
    rw [handleMessages_cons] at h
    exact fanOut_users_subset E m users w c (ih _ _ c h)

/-- The dispatcher only writes to connections that were in the map when it
started. -/
theorem handleMessages_write_mem {σ : Type} (E : Env σ) (ms : List Message) :
    ∀ (users : Users) (w : σ) (c : Conn) (t : Int) (d : List Byte) (ok : Bool),
      Event.write c t d ok ∈ (handleMessages E ms users w).trace → c ∈ users.keys := by
  induction ms with
  | nil => intro users w c t d ok h; simp [handleMessages] at h
  | cons m rest ih =>
    intro users w c t d ok h
    rw [handleMessages_cons] at h
    simp only [List.mem_cons, List.mem_append] at h
    rcases h with h | h | h
    · exact Event.noConfusion h
    · exact (rangeLoop_write_mem E m _ users w c t d ok h).2.1
    · exact fanOut_users_subset E m users w c (ih _ _ c t d ok h)

/-- Within one loop: a failed send is followed at once by `Close` and `delete`
on the same connection, which is not written to again and is not in the map
when the loop ends. -/
theorem rangeLoop_after_fail {σ : Type} (E : Env σ) (message : Message) (l : List Conn) :
    ∀ (users : Users) (w : σ) (pre post : List Event) (c : Conn) (t : Int) (d : List Byte),
      l.Nodup →
      (rangeLoop E message l users w).trace = pre ++ Event.write c t d false :: post →
        (∃ post', post = Event.close c :: Event.delete c :: post')
        ∧ (∀ t' d' ok', Event.write c t' d' ok' ∉ post)
        ∧ c ∉ (rangeLoop E message l users w).users.keys := by
  induction l with
  | nil =>
    intro users w pre post c t d _ h
    simp [rangeLoop_nil] at h
  | cons user rest ih =>
    intro users w pre post c t d hnd h
    have hnd' : rest.Nodup := (List.nodup_cons.1 hnd).2
    have hur : user ∉ rest := (List.nodup_cons.1 hnd).1
    by_cases hu : user ∈ users.keys
    · rw [rangeLoop_cons_pos E message user rest users w hu] at h ⊢
      simp only at h ⊢
      rcases rangeBody_cases E message user users w with ⟨hT, hU⟩ | ⟨hT, hU⟩
      · rw [hT] at h
        cases pre with
        | nil => simp at h
        | cons x pre' =>
          simp only [List.singleton_append, List.cons_append, List.cons.injEq] at h
          exact ih _ _ pre' post c t d hnd' h.2
      · rw [hT] at h
        cases pre with
        | nil =>
          simp only [List.cons_append, List.nil_append, List.cons.injEq, Event.write.injEq] at h
          obtain ⟨⟨hc, _, _, _⟩, hpost⟩ := h
          subst hc
          refine ⟨⟨_, hpost.symm⟩, ?_, ?_⟩
          · intro t' d' ok' hmem
            rw [← hpost] at hmem
            simp only [List.mem_cons, List.nil_append] at hmem
            rcases hmem with hmem | hmem | hmem
            · exact Event.noConfusion hmem
            · exact Event.noConfusion hmem
            · exact hur (rangeLoop_write_mem E message rest _ _ _ _ _ _ hmem).1
          · intro hmem
            have h1 := rangeLoop_users_subset E message rest _ _ _ hmem
            rw [hU] at h1
            exact ((Users.mem_keys_delete users user user).1 h1).2 rfl
        | cons x pre1 =>
          cases pre1 with
          | nil => simp at h
          | cons y pre2 =>
            cases pre2 with
            | nil => simp at h
            | cons z pre3 =>
              simp only [List.cons_append, List.nil_append, List.cons.injEq] at h
              exact ih _ _ pre3 post c t d hnd' h.2.2.2
    · rw [rangeLoop_cons_neg E message user rest users w hu] at h ⊢
      exact ih users w pre post c t d hnd' h

/-- Over a whole dispatcher run: a failed send is followed at once by `Close`
and `delete` on the same connection, which is never written to again and is
not in the map at the end. -/
theorem handleMessages_after_fail {σ : Type} (E : Env σ) (ms : List Message) :
    ∀ (users : Users) (w : σ) (pre post : List Event) (c : Conn) (t : Int) (d : List Byte),
      (handleMessages E ms users w).trace = pre ++ Event.write c t d false :: post →
        (∃ post', post = Event.close c :: Event.delete c :: post')
        ∧ (∀ t' d' ok', Event.write c t' d' ok' ∉ post)
        ∧ c ∉ (handleMessages E ms users w).users.keys := by
  induction ms with
  | nil =>
    intro users w pre post c t d h
    simp [handleMessages] at h
  | cons m rest ih =>
    intro users w pre post c t d h
    rw [handleMessages_cons] at h ⊢
    simp only at h ⊢
    cases pre with
    | nil => simp at h
    | cons x pre' =>
      simp only [List.cons_append, List.cons.injEq] at h
      obtain ⟨_, h⟩ := h
      rcases List.append_eq_append_iff.1 h with ⟨a', _, hrest⟩ | ⟨c', hfan, hpost⟩
      · exact ih _ _ a' post c t d hrest
      · cases c' with
        | nil =>
          simp only [List.nil_append] at hpost
          exact ih _ _ [] post c t d (by simpa using hpost.symm)
        | cons e c'' =>
          simp only [List.cons_append, List.cons.injEq] at hpost
          obtain ⟨he, hpost⟩ := hpost
          subst he
          obtain ⟨⟨p', hp'⟩, hno, hnot⟩ :=
            rangeLoop_after_fail E m _ users w pre' c'' c t d (rangeOrder_nodup E users w) hfan
          have hnot' : c ∉ (fanOut E m users w).users.keys := hnot
          refine ⟨⟨p' ++ (handleMessages E rest (fanOut E m users w).users
              (fanOut E m users w).world).trace, ?_⟩, ?_, ?_⟩
          · rw [hpost, hp']
            rfl
          · intro t' d' ok' hmem
            rw [hpost] at hmem
            rcases List.mem_append.1 hmem with hmem | hmem
            · exact hno t' d' ok' hmem
            · exact hnot' (handleMessages_write_mem E rest _ _ c t' d' ok' hmem)
          · intro hmem
            exact hnot' (handleMessages_users_subset E rest _ _ c hmem)

/-! ## Frames written to one connection -/

theorem filterMap_frameTo (c : Conn) (l : List Event) :
    l.filterMap (Event.frameTo c) = (l.filter (Event.isWriteTo c)).filterMap (Event.frameTo c) := by
  induction l with
  | nil => rfl
  | cons e l ih =>
    cases e with
    | write user t d ok =>
      by_cases hu : user = c
      · simp [List.filter_cons, List.filterMap_cons, Event.isWriteTo, Event.frameTo, hu, ih]
      · simp [List.filter_cons, List.filterMap_cons, Event.isWriteTo, Event.frameTo, hu, ih]
    | insert _ => simpa [List.filter_cons, List.filterMap_cons, Event.isWriteTo, Event.frameTo] using ih
    | delete _ => simpa [List.filter_cons, List.filterMap_cons, Event.isWriteTo, Event.frameTo] using ih
    | close _ => simpa [List.filter_cons, List.filterMap_cons, Event.isWriteTo, Event.frameTo] using ih
    | send _ => simpa [List.filter_cons, List.filterMap_cons, Event.isWriteTo, Event.frameTo] using ih
    | recv _ => simpa [List.filter_cons, List.filterMap_cons, Event.isWriteTo, Event.frameTo] using ih

theorem fanOut_frames_of_mem {σ : Type} (E : Env σ) (message : Message) (users : Users) (w : σ)
    (c : Conn) (hc : c ∈ users.keys) :
    (fanOut E message users w).trace.filterMap (Event.frameTo c) = [message.frame] := by
  obtain ⟨ok, h⟩ := fanOut_filter_of_mem E message users w c hc
  rw [filterMap_frameTo, h]
  simp [Event.frameTo, Message.frame]

theorem fanOut_frames_of_not_mem {σ : Type} (E : Env σ) (message : Message) (users : Users)
    (w : σ) (c : Conn) (hc : c ∉ users.keys) :
    (fanOut E message users w).trace.filterMap (Event.frameTo c) = [] := by
  rw [filterMap_frameTo, fanOut_filter_of_not_mem E message users w c hc]
  rfl

theorem handleMessages_frames_of_not_mem {σ : Type} (E : Env σ) (ms : List Message)
    (users : Users) (w : σ) (c : Conn) (hc : c ∉ users.keys) :
    (handleMessages E ms users w).trace.filterMap (Event.frameTo c) = [] := by
  rw [filterMap_frameTo]
  have : (handleMessages E ms users w).trace.filter (Event.isWriteTo c) = [] := by
    rw [List.filter_eq_nil_iff]
    intro e he hw
    obtain ⟨t, d, ok, rfl⟩ := isWriteTo_eq_true hw
    exact hc (handleMessages_write_mem E ms users w c t d ok he)
  rw [this]
  rfl

/-- The frames the dispatcher writes to one connection are those of the
first `k` messages it took from the channel, in that order. -/
theorem handleMessages_frames {σ : Type} (E : Env σ) (ms : List Message) :
    ∀ (users : Users) (w : σ) (c : Conn),
      ∃ k, (handleMessages E ms users w).trace.filterMap (Event.frameTo c)
        = (ms.take k).map Message.frame := by
  induction ms with
  | nil =>
    intro users w c
    exact ⟨0, rfl⟩
  | cons m rest ih =>
    intro users w c
    by_cases hc : c ∈ users.keys
    · obtain ⟨k, hk⟩ := ih (fanOut E m users w).users (fanOut E m users w).world c
      refine ⟨k + 1, ?_⟩
      rw [handleMessages_cons]
      simp only [List.filterMap_cons, Event.frameTo, List.filterMap_append]
      rw [fanOut_frames_of_mem E m users w c hc, hk]
      rfl
    · refine ⟨0, ?_⟩
      rw [handleMessages_frames_of_not_mem E (m :: rest) users w c hc]
      rfl

/-! ## The read loop -/

theorem readLoop_ok (remoteAddr : Conn → GoString) (conn : Conn) (frames : List (Int × List Byte))
    (rest : List ReadResult) :
    readLoop remoteAddr conn (frames.map (fun f => ReadResult.ok f.1 f.2) ++ rest)
      = ⟨frames.map (fun f => Event.send (mkMessage (remoteAddr conn) f.1 f.2))
          ++ (readLoop remoteAddr conn rest).trace,
        (readLoop remoteAddr conn rest).returned⟩ := by
  induction frames with
  | nil => rfl
  | cons f frames ih =>
    show readLoop remoteAddr conn
        (ReadResult.ok f.1 f.2 :: (frames.map (fun f => ReadResult.ok f.1 f.2) ++ rest)) = _
    simp only [readLoop, ih, List.map_cons, List.cons_append]

theorem applyEvents_send (users : Users) (ms : List Message) :
    applyEvents users (ms.map Event.send) = users := by
  induction ms with
  | nil => rfl
  | cons m ms ih =>
    simpa [applyEvents, applyEvent] using ih

theorem applyEvents_append (users : Users) (a b : List Event) :
    applyEvents users (a ++ b) = applyEvents (applyEvents users a) b := by
  simp [applyEvents, List.foldl_append]

theorem Users.keys_set_of_mem (u : Users) (conn : Conn) (v : Bool) (h : conn ∈ u.keys) :
    (u.set conn v).keys = u.keys := by
  have hk : (u.entries.map (fun e => if e.1 = conn then (conn, v) else e)).map Prod.fst
      = u.entries.map Prod.fst := by
    rw [List.map_map]
    apply List.map_congr_left
    intro e _
    by_cases he : e.1 = conn
    · simp [he]
    · simp [he]
  have h' : conn ∈ u.entries.map Prod.fst := h
  simp only [Users.keys, Users.set, setEntries, if_pos h']
  exact hk

/-! ## Scenarios -/

/-- Connections 1, 2, 3 registered, 1 sends the text `hi`: each of the three,
the sender included, is written the message once. -/
theorem scenario_three_members :
    (handleMessages exampleEnvOk [exampleMessage] exampleUsers ()).trace
      = [Event.recv exampleMessage, Event.write 1 1 [104, 105] true,
          Event.write 2 1 [104, 105] true, Event.write 3 1 [104, 105] true]
    ∧ (handleMessages exampleEnvOk [exampleMessage] exampleUsers ()).users.keys = [1, 2, 3] := by
  decide

/-- The send on 2 fails during the first message: 2 is closed and deleted, and
the second message goes to 1 and 3 only. -/
theorem scenario_failed_send :
    (handleMessages exampleEnv [exampleMessage, exampleMessage2] exampleUsers ()).trace
      = [Event.recv exampleMessage, Event.write 3 1 [104, 105] true,
          Event.write 2 1 [104, 105] false, Event.close 2, Event.delete 2,
          Event.write 1 1 [104, 105] true,
          Event.recv exampleMessage2, Event.write 3 2 [0] true, Event.write 1 2 [0] true]
    ∧ (handleMessages exampleEnv [exampleMessage, exampleMessage2] exampleUsers ()).users.keys
      = [1, 3] := by
  decide

/-- No connection registered: the messages are taken and nothing is written. -/
theorem scenario_no_members :
    (handleMessages exampleEnv [exampleMessage, exampleMessage2] Users.empty ()).trace
      = [Event.recv exampleMessage, Event.recv exampleMessage2]
    ∧ (handleMessages exampleEnv [exampleMessage, exampleMessage2] Users.empty ()).users.keys
      = [] := by
  decide

/-- A handler whose third read fails: two messages are submitted, then the
connection is deleted and closed and the fourth result is never looked at. -/
theorem scenario_read_failure :
    handleWebsocketConnections exampleAddr (some 5)
        [ReadResult.ok 1 [104], ReadResult.ok 2 [0], ReadResult.err, ReadResult.ok 1 [105]]
      = ⟨[Event.insert 5, Event.send (mkMessage (exampleAddr 5) 1 [104]),
          Event.send (mkMessage (exampleAddr 5) 2 [0]), Event.delete 5, Event.close 5], true⟩
    ∧ handleWebsocketConnections exampleAddr none [ReadResult.ok 1 [104]] = ⟨[], true⟩
    ∧ handleWebsocketConnections exampleAddr (some 5) [ReadResult.ok 1 [104]]
      = ⟨[Event.insert 5, Event.send (mkMessage (exampleAddr 5) 1 [104])], false⟩ := by
  decide

/-! ## The claims -/

/-- C1: in the fan-out of the message built from a frame `(msgType, msg)` that
was read on some connection (its `Address` may be the address of any
connection, the fan-out never looks at it), every connection that is in
`users` when the fan-out starts is the target of exactly one `WriteMessage`,
and that write carries the frame's type and exactly the frame's bytes:
`[]byte(string(msg))` is `msg`. -/
theorem C1_fanOut_writes_each_member_once {σ : Type} (E : Env σ) (users : Users) (w : σ)
    (addr : GoString) (msgType : Int) (msg : List Byte) (c : Conn) (hc : c ∈ users.keys) :
    (∃ ok, (fanOut E (mkMessage addr msgType msg) users w).trace.filter (Event.isWriteTo c)
        = [Event.write c msgType msg ok])
    ∧ GoString.toBytes (GoString.ofBytes msg) = msg :=
  ⟨fanOut_filter_of_mem E (mkMessage addr msgType msg) users w c hc, rfl⟩

/-- C1 at a concrete input: connection 1 submitted the message and is itself
written to once. -/
theorem C1_witness :
    1 ∈ exampleUsers.keys
    ∧ (∃ ok, (fanOut exampleEnv (mkMessage (exampleAddr 1) 1 [104, 105]) exampleUsers ()).trace.filter
          (Event.isWriteTo 1) = [Event.write 1 1 [104, 105] ok])
    ∧ GoString.toBytes (GoString.ofBytes [104, 105]) = [104, 105] :=
  ⟨by decide,
    C1_fanOut_writes_each_member_once exampleEnv exampleUsers () (exampleAddr 1) 1 [104, 105] 1
      (by decide)⟩

/-- C2: whatever the sends answer, the connections on which the fan-out of a
message attempts a send are exactly the keys of `users` at the start of the
fan-out, each once; the fan-out ends and the dispatcher goes on with the
next message, so that it takes every message the channel delivers. -/
theorem C2_fanOut_attempts_every_member {σ : Type} (E : Env σ) (message : Message)
    (users : Users) (w : σ) :
    ((fanOut E message users w).trace.filterMap Event.writeTarget).Perm users.keys
    ∧ (∀ rest : List Message,
        (handleMessages E (message :: rest) users w).trace
          = Event.recv message :: ((fanOut E message users w).trace
              ++ (handleMessages E rest (fanOut E message users w).users
                    (fanOut E message users w).world).trace))
    ∧ (∀ ms : List Message,
        (handleMessages E ms users w).trace.filterMap Event.received = ms) := by
  refine ⟨?_, fun rest => rfl, fun ms => handleMessages_received E ms users w⟩
  rw [fanOut_targets]
  exact E.rangeOrder_perm w users.keys

/-- C3: in a dispatcher run over any messages, a failed `WriteMessage` on `c`
is followed at once by `c.Close()` and `delete(users, c)`, no later
`WriteMessage` (for the same or a later message) is issued on `c`, and `c` is
not in `users` afterwards; and a connection that is not in `users` is not
written to by any run. -/
theorem C3_failed_connection_is_removed {σ : Type} (E : Env σ) (ms : List Message)
    (users : Users) (w : σ) (pre post : List Event) (c : Conn) (t : Int) (d : List Byte)
    (h : (handleMessages E ms users w).trace = pre ++ Event.write c t d false :: post) :
    (∃ post', post = Event.close c :: Event.delete c :: post')
    ∧ (∀ t' d' ok', Event.write c t' d' ok' ∉ post)
    ∧ c ∉ (handleMessages E ms users w).users.keys
    ∧ (∀ (ms' : List Message) (users' : Users) (w' : σ), c ∉ users'.keys →
        ∀ t' d' ok', Event.write c t' d' ok' ∉ (handleMessages E ms' users' w').trace) := by
  obtain ⟨h1, h2, h3⟩ := handleMessages_after_fail E ms users w pre post c t d h
  exact ⟨h1, h2, h3, fun ms' users' w' hc t' d' ok' hm =>
    hc (handleMessages_write_mem E ms' users' w' c t' d' ok' hm)⟩

/-- C3 at a concrete input: the send of the first message on connection 2
fails; a second message is dispatched afterwards. -/
theorem C3_witness :
    (handleMessages exampleEnv [exampleMessage, exampleMessage2] exampleUsers ()).trace
      = [Event.recv exampleMessage, Event.write 3 1 [104, 105] true]
        ++ Event.write 2 1 [104, 105] false
          :: [Event.close 2, Event.delete 2, Event.write 1 1 [104, 105] true,
              Event.recv exampleMessage2, Event.write 3 2 [0] true, Event.write 1 2 [0] true]
    ∧ (∃ post', [Event.close 2, Event.delete 2, Event.write 1 1 [104, 105] true,
              Event.recv exampleMessage2, Event.write 3 2 [0] true, Event.write 1 2 [0] true]
          = Event.close 2 :: Event.delete 2 :: post')
    ∧ (∀ t' d' ok', Event.write 2 t' d' ok' ∉
          [Event.close 2, Event.delete 2, Event.write 1 1 [104, 105] true,
              Event.recv exampleMessage2, Event.write 3 2 [0] true, Event.write 1 2 [0] true])
    ∧ 2 ∉ (handleMessages exampleEnv [exampleMessage, exampleMessage2] exampleUsers ()).users.keys
    ∧ (∀ (ms' : List Message) (users' : Users) (w' : Unit), 2 ∉ users'.keys →
        ∀ t' d' ok', Event.write 2 t' d' ok' ∉ (handleMessages exampleEnv ms' users' w').trace) :=
  ⟨by decide,
    C3_failed_connection_is_removed exampleEnv [exampleMessage, exampleMessage2] exampleUsers ()
      [Event.recv exampleMessage, Event.write 3 1 [104, 105] true] _ 2 1 [104, 105] (by decide)⟩

/-- C4: the frames the dispatcher writes to any one connection are, in order,
the frames of the first `k` messages it took from the channel, for some
`k`; so they form a subsequence of the messages in the order received. -/
theorem C4_writes_follow_dispatch_order {σ : Type} (E : Env σ) (ms : List Message)
    (users : Users) (w : σ) (c : Conn) :
    (∃ k, (handleMessages E ms users w).trace.filterMap (Event.frameTo c)
        = (ms.take k).map Message.frame)
    ∧ List.Sublist ((handleMessages E ms users w).trace.filterMap (Event.frameTo c))
        (ms.map Message.frame) := by
  obtain ⟨k, hk⟩ := handleMessages_frames E ms users w c
  refine ⟨⟨k, hk⟩, ?_⟩
  rw [hk]
  exact List.Sublist.map Message.frame (List.take_sublist k ms)

/-- C5: after the fan-out of a message `users` holds exactly the entries it
held before whose connection was written to successfully, nothing else is
removed and nothing is added; every connection registered before is written
to; with an empty map the fan-out does nothing and leaves the map empty. -/
theorem C5_fanOut_keeps_successful_members {σ : Type} (E : Env σ) (message : Message)
    (users : Users) (w : σ) :
    (fanOut E message users w).users.entries
      = users.entries.filter (fun e => decide
          (Event.write e.1 message.Type_ message.Text.toBytes true
            ∈ (fanOut E message users w).trace))
    ∧ (∀ c, c ∈ (fanOut E message users w).users.keys ↔
        c ∈ users.keys ∧ Event.write c message.Type_ message.Text.toBytes true
          ∈ (fanOut E message users w).trace)
    ∧ (∀ c, c ∈ users.keys → ∃ ok, Event.write c message.Type_ message.Text.toBytes ok
          ∈ (fanOut E message users w).trace)
    ∧ (fanOut E message Users.empty w).trace = []
    ∧ (fanOut E message Users.empty w).users = Users.empty := by
  have hE := fanOut_entries E message users w
  refine ⟨hE, ?_, ?_, ?_, ?_⟩
  · intro c
    constructor
    · intro hc
      have hc' : c ∈ (fanOut E message users w).users.entries.map Prod.fst := hc
      rw [hE, List.mem_map] at hc'
      obtain ⟨e, he, rfl⟩ := hc'
      rw [List.mem_filter] at he
      exact ⟨List.mem_map_of_mem Prod.fst he.1, by simpa using he.2⟩
    · rintro ⟨hc, hw⟩
      have hc' : c ∈ users.entries.map Prod.fst := hc
      rw [List.mem_map] at hc'
      obtain ⟨e, he, rfl⟩ := hc'
      show e.1 ∈ (fanOut E message users w).users.entries.map Prod.fst
      rw [hE]
      exact List.mem_map_of_mem Prod.fst (List.mem_filter.2 ⟨he, by simpa using hw⟩)
  · intro c hc
    obtain ⟨ok, hok⟩ := fanOut_write_iff E message users w c hc
    exact ⟨ok, (hok ok).2 rfl⟩
  · rw [fanOut_empty]
  · rw [fanOut_empty]

/-- C6: when the read after the frames `frames` fails, the handler has done
exactly this: registered `c`, submitted one message per frame, deleted `c`
from `users`, closed `c`, and returned.  What later reads would have
answered (`rest`) plays no part, so nothing is submitted and `c` is not
inserted again after the failure.  The `delete`, on any state of the map,
removes `c` and changes the membership of no other connection, and so does
the handler as a whole. -/
theorem C6_read_failure_unregisters (remoteAddr : Conn → GoString) (c : Conn)
    (frames : List (Int × List Byte)) (rest : List ReadResult) :
    handleWebsocketConnections remoteAddr (some c)
        (frames.map (fun f => ReadResult.ok f.1 f.2) ++ ReadResult.err :: rest)
      = ⟨Event.insert c :: (frames.map (fun f => Event.send (mkMessage (remoteAddr c) f.1 f.2))
          ++ [Event.delete c, Event.close c]), true⟩
    ∧ (∀ users : Users, c ∉ (applyEvent users (Event.delete c)).keys
        ∧ ∀ d, d ≠ c → (d ∈ (applyEvent users (Event.delete c)).keys ↔ d ∈ users.keys))
    ∧ (∀ users : Users,
        c ∉ (applyEvents users (handleWebsocketConnections remoteAddr (some c)
              (frames.map (fun f => ReadResult.ok f.1 f.2) ++ ReadResult.err :: rest)).trace).keys
        ∧ ∀ d, d ≠ c →
          (d ∈ (applyEvents users (handleWebsocketConnections remoteAddr (some c)
              (frames.map (fun f => ReadResult.ok f.1 f.2) ++ ReadResult.err :: rest)).trace).keys
            ↔ d ∈ users.keys)) := by
  have hrun : handleWebsocketConnections remoteAddr (some c)
        (frames.map (fun f => ReadResult.ok f.1 f.2) ++ ReadResult.err :: rest)
      = ⟨Event.insert c :: (frames.map (fun f => Event.send (mkMessage (remoteAddr c) f.1 f.2))
          ++ [Event.delete c, Event.close c]), true⟩ := by
    simp [handleWebsocketConnections, readLoop_ok, readLoop]
  have hdel : ∀ users : Users, c ∉ (users.delete c).keys
      ∧ ∀ d, d ≠ c → (d ∈ (users.delete c).keys ↔ d ∈ users.keys) := by
    intro users
    refine ⟨fun h => ((Users.mem_keys_delete users c c).1 h).2 rfl, fun d hd => ?_⟩
    rw [Users.mem_keys_delete]
    exact ⟨fun h => h.1, fun h => ⟨h, hd⟩⟩
  refine ⟨hrun, hdel, ?_⟩
  intro users
  have happ : applyEvents users (Event.insert c ::
        (frames.map (fun f => Event.send (mkMessage (remoteAddr c) f.1 f.2))
          ++ [Event.delete c, Event.close c]))
      = (users.set c true).delete c := by
    have hsend : frames.map (fun f => Event.send (mkMessage (remoteAddr c) f.1 f.2))
        = (frames.map (fun f => mkMessage (remoteAddr c) f.1 f.2)).map Event.send := by
      rw [List.map_map]
      rfl
    have hcons : applyEvents users (Event.insert c ::
          (frames.map (fun f => Event.send (mkMessage (remoteAddr c) f.1 f.2))
            ++ [Event.delete c, Event.close c]))
        = applyEvents (users.set c true)
            (frames.map (fun f => Event.send (mkMessage (remoteAddr c) f.1 f.2))
              ++ [Event.delete c, Event.close c]) := rfl
    rw [hcons, applyEvents_append, hsend, applyEvents_send]
    rfl
  rw [hrun, happ]
  refine ⟨(hdel _).1, fun d hd => ?_⟩
  rw [(hdel (users.set c true)).2 d hd, Users.mem_keys_set]
  exact ⟨fun h => h.resolve_left hd, fun h => Or.inr h⟩

/-- C7: for the frames read on `c` before the first failed read (whether the
failure has happened or the handler is still waiting for the next frame),
the handler submits to the channel exactly one `Message` per frame, in the
order read; the address of each is the remote address of `c`, the bytes of
its text are the bytes of the frame's payload, and its type is the frame's
message type. -/
theorem C7_one_message_per_frame_in_order (remoteAddr : Conn → GoString) (c : Conn)
    (frames : List (Int × List Byte)) (rest : List ReadResult) :
    ((handleWebsocketConnections remoteAddr (some c)
        (frames.map (fun f => ReadResult.ok f.1 f.2))).trace.filterMap Event.submitted
      = frames.map (fun f =>
          ({ Address := remoteAddr c, Text := { bytes := f.2 }, Type_ := f.1 } : Message))
    ∧ (handleWebsocketConnections remoteAddr (some c)
        (frames.map (fun f => ReadResult.ok f.1 f.2) ++ ReadResult.err :: rest)).trace.filterMap
          Event.submitted
      = frames.map (fun f =>
          ({ Address := remoteAddr c, Text := { bytes := f.2 }, Type_ := f.1 } : Message)))
    ∧ (((handleWebsocketConnections remoteAddr (some c)
          (frames.map (fun f => ReadResult.ok f.1 f.2))).trace.filterMap Event.submitted).map
            (fun m => (m.Address, m.Text.bytes, m.Type_))
        = frames.map (fun f => (remoteAddr c, f.2, f.1))
      ∧ ((handleWebsocketConnections remoteAddr (some c)
          (frames.map (fun f => ReadResult.ok f.1 f.2) ++ ReadResult.err :: rest)).trace.filterMap
            Event.submitted).map (fun m => (m.Address, m.Text.bytes, m.Type_))
        = frames.map (fun f => (remoteAddr c, f.2, f.1))) := by
  have hsub : ∀ l : List (Int × List Byte),
      (l.map (fun f => Event.send (mkMessage (remoteAddr c) f.1 f.2))).filterMap Event.submitted
        = l.map (fun f =>
            ({ Address := remoteAddr c, Text := { bytes := f.2 }, Type_ := f.1 } : Message)) := by
    intro l
    induction l with
    | nil => rfl
    | cons f l ih =>
      simp only [List.map_cons, List.filterMap_cons, Event.submitted, ih]
      rfl
  have h1 : (handleWebsocketConnections remoteAddr (some c)
        (frames.map (fun f => ReadResult.ok f.1 f.2))).trace.filterMap Event.submitted
      = frames.map (fun f =>
          ({ Address := remoteAddr c, Text := { bytes := f.2 }, Type_ := f.1 } : Message)) := by
    have h := readLoop_ok remoteAddr c frames []
    rw [List.append_nil] at h
    simp only [handleWebsocketConnections, h, readLoop, List.append_nil, List.filterMap_cons,
      Event.submitted, List.filterMap_append, hsub]
    simp
  have h2 : (handleWebsocketConnections remoteAddr (some c)
        (frames.map (fun f => ReadResult.ok f.1 f.2) ++ ReadResult.err :: rest)).trace.filterMap
          Event.submitted
      = frames.map (fun f =>
          ({ Address := remoteAddr c, Text := { bytes := f.2 }, Type_ := f.1 } : Message)) := by
    simp only [handleWebsocketConnections, readLoop_ok, readLoop, List.filterMap_cons,
      Event.submitted, List.filterMap_append, hsub]
    simp [Event.submitted]
  refine ⟨⟨h1, h2⟩, ?_, ?_⟩
  · rw [h1, List.map_map]
    rfl
  · rw [h2, List.map_map]
    rfl

/-- C9: `delete(users, conn)` never reports an error; on a map that does not
hold `conn` it changes nothing, doing it twice gives the same map as doing
it once, and afterwards `conn` is not a key.  In particular the removal by
the dispatcher followed by the removal by the read loop (or the other way
round) leaves the map the single removal leaves. -/
theorem C9_unregister_idempotent (users : Users) (conn : Conn) :
    unregister users conn = Except.ok (users.delete conn)
    ∧ (conn ∉ users.keys → users.delete conn = users)
    ∧ (users.delete conn).delete conn = users.delete conn
    ∧ conn ∉ (users.delete conn).keys
    ∧ applyEvents users [Event.delete conn, Event.delete conn]
        = applyEvents users [Event.delete conn] := by
  have hnot : conn ∉ (users.delete conn).keys :=
    fun h => ((Users.mem_keys_delete users conn conn).1 h).2 rfl
  have htwice : (users.delete conn).delete conn = users.delete conn :=
    Users.delete_of_not_mem (users.delete conn) conn hnot
  exact ⟨rfl, fun h => Users.delete_of_not_mem users conn h, htwice, hnot, htwice⟩

end GoLab02
